import Mathlib

/-!
Shallow embedding of the quick-patricia-trie engine (arena, nibbles, node
model, two-tier storage, insert/get, commit, defragment, DFS iterator),
translated from the Rust sources `src/arena.rs`, `src/node.rs`, `src/db.rs`,
`src/trie.rs` and `src/iter.rs`.  The struct-based nibble module used by those
files is not present under `src/` (only an older enum-based `nibbles.rs` is),
so the nibble operations are modelled from the spec (section 4.2), as marked
on each definition.

Machine integers (`usize`, `u8`) are modelled as `Nat`; all byte values that
occur in runs originate from byte inputs and stay below 256.  The external
keccak digest is a parameter `digest : List Nat → List Nat` of the commit
functions (contract: 32-byte output).  Recursions that the Rust code performs
on the heap graph (insert descent, commit, iteration) are given explicit fuel;
`none` results mean the fuel was exhausted (or a Rust `panic!` was hit, noted
locally), and concrete runs are evaluated with ample fuel.
-/

namespace QPT

abbrev Bytes := List Nat

/-- Half-byte `j` of a byte string: high nibble of byte `j/2` for even `j`,
low nibble for odd `j` (spec section 2 and `nibbles.rs`). -/
def halfAt (bs : Bytes) (j : Nat) : Nat :=
  if j % 2 = 0 then bs.getD (j / 2) 0 / 16 % 16 else bs.getD (j / 2) 0 % 16

/-- The byte arena of `arena.rs`: handles are 1-based positions, handle 0 is a
sentinel that is never a valid item.  `Arena { data, pos }` stores items as
slices of a flat buffer; item `i` is `data[pos[i-1]..pos[i]]`.  We model the
per-handle slices directly: slot 0 is the sentinel. -/
structure Arena where
  slots : List Bytes
deriving DecidableEq

def Arena.new : Arena := ⟨[[]]⟩

def Arena.read (a : Arena) (h : Nat) : Bytes := a.slots.getD h []

/-- `Arena::push`: append, return the new handle (`pos.len() - 1` after the
push, i.e. the old number of slots). -/
def Arena.push (a : Arena) (b : Bytes) : Arena × Nat :=
  (⟨a.slots ++ [b]⟩, a.slots.length)

/-- `Arena::len`: number of stored items. -/
def Arena.size (a : Arena) : Nat := a.slots.length - 1

/-- Modelled from the spec: the `Nibble` view struct used by `trie.rs`,
`node.rs`, `db.rs` and `iter.rs` (its source file is missing from `src/`):
`{data: Arena-handle, start: half-byte-offset, end: half-byte-offset}`.
The Rust field `end` is renamed `stop` (`end` is a Lean keyword). -/
structure Nibble where
  data : Nat
  start : Nat
  stop : Nat
deriving DecidableEq

/-- Modelled from the spec: `len() = end - start` half-bytes. -/
def Nibble.len (n : Nibble) : Nat := n.stop - n.start

/-- Modelled from the spec: `Nibble::default()` (all fields zero, an empty
view; used by `right.unwrap_or_default()` in `trie.rs` and by `iter.rs`). -/
def Nibble.dflt : Nibble := ⟨0, 0, 0⟩

/-- Modelled from the spec: half-byte `i` of the view, reading the backing
byte string through `read`. -/
def Nibble.get (read : Nat → Bytes) (n : Nibble) (i : Nat) : Nat :=
  halfAt (read n.data) (n.start + i)

/-- Modelled from the spec: the half-byte sequence denoted by the view
(`iter(arena)` re-derived from `(data, start, end)`). -/
def Nibble.toList (read : Nat → Bytes) (n : Nibble) : List Nat :=
  (List.range n.len).map (n.get read)

/-- Modelled from the spec: `pop_front` returns `None` if empty, else the
first half-byte and the view advanced by one. -/
def Nibble.popFront (read : Nat → Bytes) (n : Nibble) : Option (Nat × Nibble) :=
  if n.start < n.stop then some (n.get read 0, ⟨n.data, n.start + 1, n.stop⟩) else none

/-- Modelled from the spec: `split_at(k)` splits after `k` half-bytes; the
second component is `None` if `k` reaches or exceeds the length. -/
def Nibble.splitAt (n : Nibble) (k : Nat) : Nibble × Option Nibble :=
  (⟨n.data, n.start, min (n.start + k) n.stop⟩,
   if n.stop ≤ n.start + k then none else some ⟨n.data, n.start + k, n.stop⟩)

/-- Modelled from the spec: `copy` materializes the view's bytes into another
arena (the covering byte range is copied, so offsets keep their parity; this
byte-granular behaviour is what `iter.rs`'s key reconstruction relies on). -/
def Nibble.copy (read : Nat → Bytes) (n : Nibble) (a : Arena) : Arena × Nibble :=
  let bytes := ((read n.data).drop (n.start / 2)).take ((n.stop + 1) / 2 - n.start / 2)
  let (a', h) := a.push bytes
  (a', ⟨h, n.start % 2, n.stop - 2 * (n.start / 2)⟩)

/-- Pack a half-byte sequence two per byte (`w[0] << 4 | w[1]`). -/
def packPairs : List Nat → List Nat
  | a :: b :: t => (a * 16 + b) :: packPairs t
  | _ => []

/-- Modelled from the spec: `encoded(is_leaf)`, the compact hex-prefix
encoding used by Leaf/Extension: one flag nibble (leaf flag 0x20, odd flag
0x10) possibly packed with the first half-byte, then the rest packed two per
byte. -/
def hpEncode (isLeaf : Bool) (l : List Nat) : Bytes :=
  match l with
  | [] => [if isLeaf then 0x20 else 0x00]
  | h :: t =>
    if (h :: t).length % 2 = 1 then
      ((if isLeaf then 0x30 else 0x10) + h) :: packPairs t
    else
      (if isLeaf then 0x20 else 0x00) :: packPairs (h :: t)

/-- Minimal big-endian bytes of a `usize` length (only used by the RLP long
forms; 8 digits cover every 64-bit value). -/
def beAux : Nat → Nat → List Nat
  | 0, _ => []
  | f + 1, n => if n = 0 then [] else beAux f (n / 256) ++ [n % 256]

def beBytes (n : Nat) : List Nat := beAux 8 n

/-- RLP encoding of a byte string (the external codec's contract: single
bytes below 0x80 stand for themselves, short strings get a `0x80 + len`
header, long strings a `0xb7 + lenlen` header). -/
def rlpStr (b : Bytes) : Bytes :=
  if b.length = 1 ∧ b.headD 0 < 0x80 then b
  else if b.length ≤ 55 then (0x80 + b.length) :: b
  else (0xb7 + (beBytes b.length).length) :: (beBytes b.length ++ b)

/-- RLP list header around an already-encoded payload. -/
def rlpList (payload : Bytes) : Bytes :=
  if payload.length ≤ 55 then (0xc0 + payload.length) :: payload
  else (0xf7 + (beBytes payload.length).length) :: (beBytes payload.length ++ payload)

/-- `db.rs` `Index`: a committed node keyed by the arena handle of its digest
or inlined encoding (`Hash`), or a dirty node at a position of the memory
vector (`Memory`). -/
inductive Index where
  | hash (h : Nat)
  | memory (i : Nat)
deriving DecidableEq

/-- `node.rs` `Leaf { nibble, value }` (value: arena handle). -/
structure Leaf where
  nibble : Nibble
  value : Nat
deriving DecidableEq

/-- `node.rs` `Extension { nibble, key }`. -/
structure Extension where
  nibble : Nibble
  key : Index
deriving DecidableEq

/-- `node.rs` `Branch { keys: [Option<Index>; 16], value: Option<usize> }`
(the 16-slot array is a 16-element list by construction). -/
structure Branch where
  keys : List (Option Index)
  value : Option Nat
deriving DecidableEq

def Branch.dflt : Branch := ⟨List.replicate 16 none, none⟩

inductive Node where
  | empty
  | leaf (l : Leaf)
  | branch (b : Branch)
  | ext (e : Extension)
deriving DecidableEq

/-- `Branch::encoded` (`node.rs`): 17-item RLP list; a `Hash` child whose
stored bytes are shorter than 32 is spliced in raw (inlined), otherwise
appended as a byte string; non-`Hash` slots become the empty item; the value
slot is appended last.  The encoding is pushed into the arena and its handle
returned. -/
def Branch.encoded (b : Branch) (a : Arena) : Arena × Nat :=
  let payload :=
    (b.keys.map (fun k =>
      match k with
      | some (Index.hash i) =>
        let d := a.read i
        if d.length < 32 then d else rlpStr d
      | _ => [0x80])).flatten
    ++ (match b.value with
        | none => [0x80]
        | some i => rlpStr (a.read i))
  a.push (rlpList payload)

/-- `Leaf::encoded` (`node.rs`): 2-item RLP list of the leaf-flagged
hex-prefix nibble and the value bytes. -/
def Leaf.encoded (l : Leaf) (a : Arena) : Arena × Nat :=
  a.push (rlpList (rlpStr (hpEncode true (l.nibble.toList a.read))
                   ++ rlpStr (a.read l.value)))

/-- `Extension::encoded_or_empty` (`node.rs`): if the child is not yet
`Hash`, returns the `empty` handle; otherwise a 2-item RLP list of the
extension-flagged hex-prefix nibble and the child reference (spliced raw when
shorter than 32 bytes, else as a byte string). -/
def Extension.encodedOrEmpty (e : Extension) (a : Arena) (emptyIdx : Nat) : Arena × Nat :=
  match e.key with
  | Index.hash i =>
    let k := a.read i
    a.push (rlpList (rlpStr (hpEncode false (e.nibble.toList a.read))
                     ++ (if k.length < 32 then k else rlpStr k)))
  | _ => (a, emptyIdx)

/-- Association-list model of the `HashMap<usize, Node>` hash tier. -/
def hGet : List (Nat × Node) → Nat → Option Node
  | [], _ => none
  | (k', v) :: t, k => if k' = k then some v else hGet t k

def hInsert : List (Nat × Node) → Nat → Node → List (Nat × Node)
  | [], k, v => [(k, v)]
  | (k', v') :: t, k, v => if k' = k then (k, v) :: t else (k', v') :: hInsert t k v

def hRemove : List (Nat × Node) → Nat → Option Node × List (Nat × Node)
  | [], _ => (none, [])
  | (k', v') :: t, k =>
    if k' = k then (some v', t)
    else
      let (o, t') := hRemove t k
      (o, (k', v') :: t')

/-- `db.rs` `Db`: hash tier, memory tier, the handle of the empty-trie
digest, and the root index. -/
structure Db where
  hash : List (Nat × Node)
  memory : List Node
  empty : Nat
  root : Index
deriving DecidableEq

def Db.get (db : Db) (k : Index) : Option Node :=
  match k with
  | Index.hash h => hGet db.hash h
  | Index.memory i => db.memory.get? i

/-- `Db::get_mut`: copy-on-write promotion.  A `Hash` index is removed from
the hash tier and appended to the memory vector; the caller's index (and the
root, if this was the root) is rewritten to the new `Memory` position.  The
returned node is the one the caller now mutates at the returned index. -/
def Db.getMut (db : Db) (k : Index) : Db × Index × Option Node :=
  match k with
  | Index.hash h =>
    match hRemove db.hash h with
    | (none, _) => (db, k, none)
    | (some n, hash') =>
      let len := db.memory.length
      let root' := if k = db.root then Index.memory len else db.root
      ({ db with hash := hash', memory := db.memory ++ [n], root := root' },
       Index.memory len, some n)
  | Index.memory i => (db, k, db.memory.get? i)

/-- `Db::insert_node` (replace at an existing index; out-of-range memory
positions are a no-op, as `get_mut(..).map(..)` is in Rust). -/
def Db.insertNode (db : Db) (k : Index) (n : Node) : Db :=
  match k with
  | Index.hash h => { db with hash := hInsert db.hash h n }
  | Index.memory i => { db with memory := db.memory.set i n }

/-- `Db::push_node`: allocate a brand-new memory slot. -/
def Db.pushNode (db : Db) (n : Node) : Db × Index :=
  ({ db with memory := db.memory ++ [n] }, Index.memory db.memory.length)

/-- `Db::remove`: replace the slot's content with `Empty` (the old node is
returned in Rust but every caller in `trie.rs` discards it). -/
def Db.removeNode (db : Db) (k : Index) : Db :=
  match k with
  | Index.hash h => { db with hash := hInsert db.hash h Node.empty }
  | Index.memory i => { db with memory := db.memory.set i Node.empty }

/-- `trie.rs` `Trie { arena, db }`. -/
structure Trie where
  arena : Arena
  db : Db
deriving DecidableEq

/-- `Trie::new` / `Db::new`: push `KECCAK_NULL_RLP` (= digest of the RLP
empty item `0x80`) into the arena and seed the hash tier with the empty node
under that handle. -/
def Trie.new (digest : Bytes → Bytes) : Trie :=
  let (a, idx) := Arena.new.push (digest [0x80])
  ⟨a, ⟨[(idx, Node.empty)], [], idx, Index.hash idx⟩⟩

/-- The tasks of the mutually recursive `Db::commit_node` (`db.rs`): commit
one index, compute one node's encoding handle after committing its children,
or commit a branch's 16 child slots in order.  A single fuel-indexed function
keeps the recursion structural so that concrete runs evaluate. -/
inductive CTask where
  | cNode (idx : Index)
  | cStep (n : Node)
  | cKeys (ks : List (Option Index))

inductive CRes where
  | rNode (idx : Index)
  | rStep (n : Node) (encIdx : Nat)
  | rKeys (ks : List (Option Index))
deriving DecidableEq

/-- `Db::commit_node` and the bodies of its recursive calls.  `cNode`: a
`Hash` index returns unchanged; a `Memory` index takes the node out
(`mem::replace` with `Empty`), commits children and computes the encoding
handle (`cStep`), then applies the inline-vs-hash policy: if this is the root
or the encoded bytes are at least 32 long, push `digest(encoding)` and store
the node under that handle; otherwise store the node under the raw encoding's
own handle (no digest).  `cStep` mirrors the `match node` computing
`encoded_idx`; `cKeys` the `for k in &mut branch.keys` loop. -/
def commitGo (digest : Bytes → Bytes) :
    Nat → Db → Arena → CTask → Option (Db × Arena × CRes)
  | 0, _, _, _ => none
  | f + 1, db, a, t =>
    match t with
    | CTask.cNode idx =>
      match idx with
      | Index.hash _ => some (db, a, CRes.rNode idx)
      | Index.memory i =>
        let node := (db.memory.get? i).getD Node.empty
        let db0 := { db with memory := db.memory.set i Node.empty }
        match commitGo digest f db0 a (CTask.cStep node) with
        | some (db1, a1, CRes.rStep node1 encIdx) =>
          let data := a1.read encIdx
          if idx = db1.root ∨ 32 ≤ data.length then
            let (a2, h) := a1.push (digest data)
            some ({ db1 with hash := hInsert db1.hash h node1 }, a2, CRes.rNode (Index.hash h))
          else
            some ({ db1 with hash := hInsert db1.hash encIdx node1 }, a1,
                  CRes.rNode (Index.hash encIdx))
        | _ => none
    | CTask.cStep n =>
      match n with
      | Node.leaf l =>
        let (a', e) := l.encoded a
        some (db, a', CRes.rStep (Node.leaf l) e)
      | Node.branch b =>
        match commitGo digest f db a (CTask.cKeys b.keys) with
        | some (db', a', CRes.rKeys keys') =>
          let b' : Branch := { b with keys := keys' }
          let (a2, e) := b'.encoded a'
          some (db', a2, CRes.rStep (Node.branch b') e)
        | _ => none
      | Node.ext e =>
        match commitGo digest f db a (CTask.cNode e.key) with
        | some (db', a', CRes.rNode k') =>
          let e' : Extension := { e with key := k' }
          let (a2, ei) := e'.encodedOrEmpty a' db'.empty
          some (db', a2, CRes.rStep (Node.ext e') ei)
        | _ => none
      | Node.empty => some (db, a, CRes.rStep Node.empty db.empty)
    | CTask.cKeys ks =>
      match ks with
      | [] => some (db, a, CRes.rKeys [])
      | none :: t =>
        match commitGo digest f db a (CTask.cKeys t) with
        | some (db', a', CRes.rKeys t') => some (db', a', CRes.rKeys (none :: t'))
        | _ => none
      | some ki :: t =>
        match commitGo digest f db a (CTask.cNode ki) with
        | some (db', a', CRes.rNode ki') =>
          match commitGo digest f db' a' (CTask.cKeys t) with
          | some (db2, a2, CRes.rKeys t') => some (db2, a2, CRes.rKeys (some ki' :: t'))
          | _ => none
        | _ => none

/-- `Db::commit` / `Trie::commit`: no-op when the root is already `Hash`;
otherwise commit the root's subtree, clear the memory vector and set the root
to the resulting `Hash` index. -/
def Trie.commit (digest : Bytes → Bytes) (fuel : Nat) (t : Trie) : Option Trie :=
  match t.db.root with
  | Index.hash _ => some t
  | Index.memory _ =>
    match commitGo digest fuel t.db t.arena (CTask.cNode t.db.root) with
    | some (db', a', CRes.rNode idx') =>
      some ⟨a', { db' with memory := [], root := idx' }⟩
    | _ => none

/-- `Db::root`: the bytes at the root's hash handle (`None` while the root is
still in memory).  `Trie::root` is `commit` followed by this read. -/
def Trie.rootB (t : Trie) : Option Bytes :=
  match t.db.root with
  | Index.memory _ => none
  | Index.hash h => some (t.arena.read h)

/-- Position of the first differing half-byte of two zipped sequences
(`iter().zip(..).position(|(u, v)| u != v)` in `trie.rs`; `zip` truncates to
the shorter sequence). -/
def firstMismatch : List Nat → List Nat → Option Nat
  | x :: xs, y :: ys =>
    if x ≠ y then some 0 else (firstMismatch xs ys).map (· + 1)
  | _, _ => none

/-- `Trie::get_nibble` (`trie.rs`): descend from the root; Branch follows the
next half-byte's slot or returns its own value when the path is consumed;
Extension requires `eq` of its nibble with the left split of the path; Leaf
requires `eq` with the whole remaining path.  A missing index (`db.get`
returning `None`) is "not found".  Result: `none` = fuel exhausted,
`some none` = not found, `some (some v)` = found. -/
def getLoop (t : Trie) (read : Nat → Bytes) :
    Nat → Index → Nibble → Option (Option Bytes)
  | 0, _, _ => none
  | f + 1, key, path =>
    match t.db.get key with
    | none => some none
    | some (Node.branch b) =>
      match path.popFront read with
      | some (u, n) =>
        match b.keys.getD u none with
        | none => some none
        | some k => getLoop t read f k n
      | none => some (b.value.map t.arena.read)
    | some (Node.ext e) =>
      let (left, right) := path.splitAt e.nibble.len
      if e.nibble.toList t.arena.read = left.toList read then
        getLoop t read f e.key (right.getD Nibble.dflt)
      else some none
    | some (Node.leaf l) =>
      some (if l.nibble.toList t.arena.read = path.toList read
            then some (t.arena.read l.value) else none)
    | some Node.empty => some none

/-- `Trie::get`: view the key as a full-span nibble over a one-slot scratch
arena (`ArenaSlice`, 0-based). -/
def Trie.get (t : Trie) (key : Bytes) (fuel : Nat) : Option (Option Bytes) :=
  getLoop t (fun i => if i = 0 then key else []) fuel t.db.root
    ⟨0, 0, 2 * key.length⟩

/-- The `Action` enum of `trie.rs`. -/
inductive Action where
  | actRoot
  | actBranchKey (u : Nat) (l : Leaf)
  | actExt (e : Extension) (off : Nat)
  | actLeaf (l : Leaf) (off : Nat)

/-- `Trie::execute_action` (`trie.rs`).  `read` is the caller's scratch arena
(holding the key and value being inserted), `v` the trie-arena handle of the
copied value, `key` the index at which the descent broke, `path` the
remaining path at that node.  Returns `none` exactly on the
`panic!("extension nibble too short")` path; otherwise `some (t', none)` —
the previous value is always `None` here. -/
def executeAction (read : Nat → Bytes) (v : Nat) (act : Action) (t : Trie)
    (key : Index) (path : Nibble) : Option (Trie × Option Bytes) :=
  match act with
  | Action.actBranchKey u newLeaf =>
    let (db1, k1) := t.db.pushNode (Node.leaf newLeaf)
    let (db2, k2, nodeOpt) := db1.getMut key
    match nodeOpt with
    | some (Node.branch b) =>
      some ({ t with db := db2.insertNode k2 (Node.branch { b with keys := b.keys.set u (some k1) }) }, none)
    | _ => some ({ t with db := db2 }, none)
  | Action.actExt e off =>
    let db1 := t.db.removeNode key
    let pathR := (path.splitAt off).2
    let (a1, db2, keys1, bval1) :=
      match pathR.bind (fun p => p.popFront read) with
      | some (u, p) =>
        let (a', nib) := p.copy read t.arena
        let (db', k') := db1.pushNode (Node.leaf ⟨nib, v⟩)
        (a', db', Branch.dflt.keys.set u (some k'), (none : Option Nat))
      | none => (t.arena, db1, Branch.dflt.keys, some v)
    let (extL, extR) := e.nibble.splitAt off
    match extR.bind (fun n0 => n0.popFront a1.read) with
    | none => none
    | some (u, nib) =>
      let (db3, newKey) :=
        if nib.len = 0 then (db2, e.key)
        else db2.pushNode (Node.ext ⟨nib, e.key⟩)
      let br : Branch := ⟨keys1.set u (some newKey), bval1⟩
      if 0 < off then
        let (db4, branchKey) := db3.pushNode (Node.branch br)
        some ({ t with arena := a1,
                       db := db4.insertNode key (Node.ext ⟨extL, branchKey⟩) }, none)
      else
        some ({ t with arena := a1, db := db3.insertNode key (Node.branch br) }, none)
  | Action.actLeaf l off =>
    let db1 := t.db.removeNode key
    let pathR := (path.splitAt off).2
    let (a1, db2, keys1, bval1) :=
      match pathR.bind (fun p => p.popFront read) with
      | some (u, p) =>
        let (a', nib) := p.copy read t.arena
        let (db', k') := db1.pushNode (Node.leaf ⟨nib, v⟩)
        (a', db', Branch.dflt.keys.set u (some k'), (none : Option Nat))
      | none => (t.arena, db1, Branch.dflt.keys, some v)
    let (leafL, leafR) := l.nibble.splitAt off
    let (db3, keys2, bval2) :=
      match leafR.bind (fun n0 => n0.popFront a1.read) with
      | some (u, nib) =>
        let (db', k') := db2.pushNode (Node.leaf ⟨nib, l.value⟩)
        (db', keys1.set u (some k'), bval1)
      | none => (db2, keys1, some l.value)
    let br : Branch := ⟨keys2, bval2⟩
    if 0 < off then
      let (db4, branchKey) := db3.pushNode (Node.branch br)
      some ({ t with arena := a1,
                     db := db4.insertNode key (Node.ext ⟨leafL, branchKey⟩) }, none)
    else
      some ({ t with arena := a1, db := db3.insertNode key (Node.branch br) }, none)
  | Action.actRoot =>
    let (a1, nib) := path.copy read t.arena
    some ({ t with arena := a1, db := t.db.insertNode key (Node.leaf ⟨nib, v⟩) }, none)

/-- The descent loop of `Trie::insert_leaf` (`trie.rs`): walk with `get_mut`
(promoting hash-tier nodes), replacing a Branch's value or a Leaf's value in
place when the path is consumed exactly, and otherwise breaking with an
`Action` that `execute_action` applies at the break index.  Result: `none` =
fuel exhausted or panic, else `some (trie', previous value)`. -/
def insertLoop (read : Nat → Bytes) (v : Nat) :
    Nat → Trie → Index → Nibble → Option (Trie × Option Bytes)
  | 0, _, _, _ => none
  | f + 1, t, key, path =>
    let (db1, key1, nodeOpt) := t.db.getMut key
    let t1 : Trie := { t with db := db1 }
    match nodeOpt with
    | some (Node.branch b) =>
      match path.popFront read with
      | some (u, n) =>
        match b.keys.getD u none with
        | some k => insertLoop read v f t1 k n
        | none =>
          let (a', nib) := n.copy read t1.arena
          executeAction read v (Action.actBranchKey u ⟨nib, v⟩)
            { t1 with arena := a' } key1 path
      | none =>
        let old := b.value
        let db2 := db1.insertNode key1 (Node.branch { b with value := some v })
        some ({ t1 with db := db2 }, old.map t1.arena.read)
    | some (Node.ext e) =>
      let (left, right) := path.splitAt e.nibble.len
      match firstMismatch (e.nibble.toList t1.arena.read) (left.toList read) with
      | some p => executeAction read v (Action.actExt e p) t1 key1 path
      | none => insertLoop read v f t1 e.key (right.getD Nibble.dflt)
    | some (Node.leaf l) =>
      let (left, right) := path.splitAt l.nibble.len
      match firstMismatch (l.nibble.toList t1.arena.read) (left.toList read) with
      | some p => executeAction read v (Action.actLeaf l p) t1 key1 path
      | none =>
        match right with
        | some _ => executeAction read v (Action.actLeaf l l.nibble.len) t1 key1 path
        | none =>
          if path.len = l.nibble.len then
            let db2 := db1.insertNode key1 (Node.leaf { l with value := v })
            some ({ t1 with db := db2 }, some (t1.arena.read l.value))
          else executeAction read v (Action.actLeaf l path.len) t1 key1 path
    | _ => executeAction read v Action.actRoot t1 key1 path

/-- `Trie::insert`: scratch arena `[key, value]` (`ArenaSlice`, 0-based), the
value copied into the trie arena up front, then the descent from the root. -/
def Trie.insert (t : Trie) (key value : Bytes) (fuel : Nat) :
    Option (Trie × Option Bytes) :=
  let read := fun i => [key, value].getD i []
  let (a1, v) := t.arena.push (read 1)
  insertLoop read v fuel { t with arena := a1 } t.db.root ⟨0, 0, 2 * key.length⟩

/-- Run an insert with ample fuel, keeping the old trie on failure (used only
to build concrete states; every use is separately shown to have succeeded). -/
def insertD (t : Trie) (k v : Bytes) : Trie :=
  match t.insert k v 64 with
  | some (t', _) => t'
  | none => t

/-- Insertion into a sorted list (the model's `sort_unstable`). -/
def insSorted (x : Nat) : List Nat → List Nat
  | [] => [x]
  | y :: t => if x ≤ y then x :: y :: t else y :: insSorted x t

def insSort : List Nat → List Nat
  | [] => []
  | x :: t => insSorted x (insSort t)

/-- `Vec::dedup`: remove consecutive duplicates (global ones after sorting). -/
def dedupAdj : List Nat → List Nat
  | a :: b :: t => if a = b then dedupAdj (b :: t) else a :: dedupAdj (b :: t)
  | l => l

/-- `Arena::defragment`: sort and dedup the used handles, push their bytes
into a fresh arena in ascending order, and return the old-handle → new-handle
remap table (unused handles map to 0). -/
def Arena.defragment (a : Arena) (used : List Nat) : Arena × List Nat :=
  let sorted := dedupAdj (insSort used)
  sorted.foldl
    (fun (acc : Arena × List Nat) i =>
      let (na, h) := acc.1.push (a.read i)
      (na, acc.2.set i h))
    (Arena.new, List.replicate a.slots.length 0)

/-- `append_node_index` inside `Db::defragment` (`db.rs`): the arena handles
a hash-tier node keeps alive (a leaf's nibble data only when non-empty, its
value; a branch's `Hash` children and value; an extension's nibble data and
`Hash` child). -/
def nodeIndexes (n : Node) : List Nat :=
  match n with
  | Node.leaf l => (if 0 < l.nibble.len then [l.nibble.data] else []) ++ [l.value]
  | Node.branch b =>
    (b.keys.filterMap (fun k =>
      match k with
      | some (Index.hash h) => some h
      | _ => none))
    ++ (match b.value with | some v => [v] | none => [])
  | Node.ext e =>
    [e.nibble.data] ++ (match e.key with | Index.hash h => [h] | _ => [])
  | Node.empty => []

/-- `Db::defragment` (`db.rs`): collect every hash-tier key and every handle
reachable from a hash-tier node, compact the arena, and rewrite the handles
stored inside the hash tier (keys and node contents).  Note: the stored
`root` index is not rewritten. -/
def Db.defragment (db : Db) (a : Arena) : Db × Arena :=
  let used := db.hash.foldl (fun acc kv => acc ++ [kv.1] ++ nodeIndexes kv.2) []
  let (a', map) := a.defragment used
  let remap := fun (h : Nat) => map.getD h 0
  let hash' := db.hash.map (fun kv =>
    (remap kv.1,
     match kv.2 with
     | Node.leaf l =>
       Node.leaf { l with nibble := { l.nibble with data := remap l.nibble.data },
                          value := remap l.value }
     | Node.branch b =>
       Node.branch ⟨b.keys.map (fun k =>
           match k with
           | some (Index.hash h) => some (Index.hash (remap h))
           | o => o),
         b.value.map remap⟩
     | Node.ext e =>
       Node.ext { e with nibble := { e.nibble with data := remap e.nibble.data },
                         key := match e.key with
                                | Index.hash h => Index.hash (remap h)
                                | o => o }
     | Node.empty => Node.empty))
  ({ db with hash := hash' }, a')

/-- `Trie::defragment`. -/
def Trie.defragment (t : Trie) : Trie :=
  let (db', a') := t.db.defragment t.arena
  ⟨a', db'⟩

/-- The `NodeIter` stack frames of `iter.rs` (node values in place of the
Rust borrows). -/
inductive Frame where
  | brF (b : Branch) (n : Option Nat)
  | exF (e : Extension)

/-- `DFSIter` state: the frame stack (top at the head; `iter.rs` iterates a
`Vec` front-to-back, i.e. this list reversed) and the `root` flag. -/
structure IterSt where
  stack : List Frame
  root : Bool

/-- Byte-range slice `l[i..j]` (total; the Rust slicing panics on a reversed
or out-of-range range, which does not occur in the runs evaluated here). -/
def slice (l : Bytes) (i j : Nat) : Bytes := (l.drop i).take (j - i)

/-- The frame-folding loop of `DFSIter::build_key` (`iter.rs`), root-first
over the frames, merging extension nibbles (tracking `start`, the running
`nibble`, the byte `buffer` and the branch `count`).  `none` models the
`panic!("getting 2 chunks of same nibble??")` arm.  The `usize` subtractions
are modelled by truncated `Nat` subtraction; no subtraction underflows in the
runs evaluated here. -/
def bkGo (readA : Nat → Bytes) :
    List Frame → Bool → Nibble → Bytes → Nat → Option (Bool × Nibble × Bytes × Nat)
  | [], s, nb, buf, c => some (s, nb, buf, c)
  | Frame.brF _ _ :: t, s, nb, buf, c => bkGo readA t s nb buf (c + 1)
  | Frame.exF e :: t, s, nb, buf, c =>
    if s then
      bkGo readA t false { e.nibble with start := e.nibble.start - c } buf 0
    else if nb.data = e.nibble.data then
      if nb.stop + c = e.nibble.start then
        bkGo readA t false { nb with stop := e.nibble.stop } buf 0
      else none
    else
      let data1 := readA nb.data
      let data2 := readA e.nibble.data
      let buf1 := buf ++ slice data1 (nb.start / 2) (nb.stop / 2)
      if nb.stop % 2 = 1 ∧ (e.nibble.start - c) % 2 = 1 then
        let buf2 := buf1 ++
          [data1.getD (nb.stop / 2) 0 / 16 * 16 + data2.getD ((e.nibble.start - c) / 2) 0 % 16]
        bkGo readA t false { e.nibble with start := e.nibble.start + 1 - c } buf2 0
      else
        bkGo readA t false { e.nibble with start := e.nibble.start - c } buf1 0

/-- `DFSIter::build_key`: fold the frames, then append the terminal leaf's
fragment (or nothing for a branch's own value). -/
def buildKey (t : Trie) (frames : List Frame) (leafOpt : Option Leaf) : Option Bytes :=
  match bkGo t.arena.read frames true Nibble.dflt [] 0 with
  | none => none
  | some (s, nibble, buffer, count) =>
    match leafOpt with
    | some leaf =>
      let data := t.arena.read leaf.nibble.data
      if s then some data
      else if leaf.nibble.data = nibble.data then
        if buffer.isEmpty then some data
        else some (buffer ++ slice data (nibble.start / 2) (nibble.stop / 2))
      else
        let data1 := t.arena.read nibble.data
        let buf1 := buffer ++ slice data1 (nibble.start / 2) (nibble.stop / 2)
        let buf2 :=
          if nibble.stop % 2 = 1 ∧ (leaf.nibble.start - count) % 2 = 1 then
            buf1 ++ [data1.getD (nibble.stop / 2) 0 / 16 * 16
                     + data.getD ((leaf.nibble.start - count) / 2) 0 % 16]
          else buf1
        some (buf2 ++ slice data ((leaf.nibble.start - count) / 2) (leaf.nibble.stop / 2))
    | none =>
      let data1 := t.arena.read nibble.data
      some (buffer ++ slice data1 (nibble.start / 2) (nibble.stop / 2))

/-- First slot holding `some` (`position(|k| k.is_some())`). -/
def posFirstSome (l : List (Option Index)) : Option Nat := l.findIdx? (·.isSome)

/-- The backtracking loop of `DFSIter::next`: pop frames; on a Branch frame
search the slots after the last-followed one (note: the position returned by
the skipped iterator is used directly both as the recorded slot and as the
index into `keys`, exactly as `iter.rs` does). -/
def popLoop : List Frame → Option (Index × List Frame)
  | [] => none
  | Frame.exF _ :: rest => popLoop rest
  | Frame.brF b n :: rest =>
    let skipN := match n with | none => 0 | some j => j + 1
    match posFirstSome (b.keys.drop skipN) with
    | some p =>
      match b.keys.getD p none with
      | some k => some (k, Frame.brF b (some p) :: rest)
      | none => none
    | none => popLoop rest

/-- The descend loop of `DFSIter::next`: follow the node at `key`, pushing
frames, until a Leaf or a valueful Branch yields a pair (a valueless Branch
recurses into `next`, i.e. backtracks); a missing node stops iteration. -/
def descend (t : Trie) : Nat → List Frame → Index → Option ((Bytes × Bytes) × IterSt)
  | 0, _, _ => none
  | f + 1, stack, key =>
    match t.db.get key with
    | none => none
    | some (Node.leaf l) =>
      match buildKey t stack.reverse (some l) with
      | none => none
      | some kb => some ((kb, t.arena.read l.value), ⟨stack, false⟩)
    | some (Node.ext e) => descend t f (Frame.exF e :: stack) e.key
    | some (Node.branch b) =>
      let stack1 := Frame.brF b none :: stack
      match b.value with
      | some v =>
        match buildKey t stack1.reverse none with
        | none => none
        | some kb => some ((kb, t.arena.read v), ⟨stack1, false⟩)
      | none =>
        match popLoop stack1 with
        | none => none
        | some (k2, stack2) => descend t f stack2 k2
    | some Node.empty => none

/-- `DFSIter::next`. -/
def iterNext (t : Trie) (fuel : Nat) (st : IterSt) : Option ((Bytes × Bytes) × IterSt) :=
  if st.root then descend t fuel st.stack t.db.root
  else
    match popLoop st.stack with
    | none => none
    | some (k, stack') => descend t fuel stack' k

/-- Collect the first `n` pairs the iterator yields. -/
def iterTake (t : Trie) (fuel : Nat) : Nat → IterSt → List (Bytes × Bytes)
  | 0, _ => []
  | n + 1, st =>
    match iterNext t fuel st with
    | none => []
    | some (p, st') => p :: iterTake t fuel n st'

/-- `Trie::iter`'s initial state. -/
def iterInit : IterSt := ⟨[], true⟩

def tDigest (b : Bytes) : Bytes :=
  (b.length % 256) :: (b.take 31 ++ List.replicate (31 - min 31 b.length) 0)

/-- Two keys sharing the 4-half-byte prefix `0123`, so that their split
creates an Extension with a 4-half-byte nibble at the root. -/
def qExtTrie : Trie :=
  insertD (insertD (Trie.new tDigest) [0x01, 0x23, 0x45] [0xaa]) [0x01, 0x23, 0x67] [0xbb]

/-- The pair set `{([0x01,0x23,0x45], aa), ([0x01,0x23,0x67], bb), ([0x01], cc)}`
inserted in two orders. -/
def qC2a : Trie := insertD qExtTrie [0x01] [0xcc]

def qC2b : Trie :=
  insertD (insertD (insertD (Trie.new tDigest) [0x01] [0xcc])
    [0x01, 0x23, 0x45] [0xaa]) [0x01, 0x23, 0x67] [0xbb]

/-- `qExtTrie` with the key `[0x01, 0x23]` (the exact extension prefix) also
inserted, so the Branch behind the extension carries value `[0xcc]`. -/
def qC4Trie : Trie := insertD qExtTrie [0x01, 0x23] [0xcc]

def qC6Pre : Trie := insertD (Trie.new tDigest) [0x01, 0x23] [0x45]

def qC6Committed : Trie := (Trie.commit tDigest 64 qC6Pre).getD qC6Pre

def qC7Pre : Trie :=
  insertD (insertD (Trie.new tDigest) [0x01, 0x23] [0xaa]) [0x11, 0x23] [0xbb]

def qC7Committed : Trie := (Trie.commit tDigest 64 qC7Pre).getD qC7Pre

/-- Two keys that differ only in their last half-byte. -/
def qC9Trie : Trie :=
  insertD (insertD (Trie.new tDigest) [0x01, 0x23] [0xaa]) [0x01, 0x25] [0xbb]

/-- Number of non-`Empty` nodes stored in the trie (memory and hash tiers). -/
def nonEmptyCount (t : Trie) : Nat :=
  (t.db.memory.filter (· ≠ Node.empty)).length
    + (t.db.hash.filter (·.2 ≠ Node.empty)).length

/-- The canonical encoding of the single-leaf trie `qC6Pre`'s root: a 2-item
RLP list of the hex-prefix nibble `0x20 0x01 0x23` and the value `0x45` —
6 bytes, strictly shorter than the 32-byte digest width. -/
def qC3RootEnc : Bytes := [0xc5, 0x83, 0x20, 0x01, 0x23, 0x45]

/-- The leaf at memory position 1 of the two-leaf trie `qC7Pre`, its node
taken out exactly as `commit_node` does. -/
def w3res : Option (Db × Arena × CRes) :=
  commitGo tDigest 32 { qC7Pre.db with memory := qC7Pre.db.memory.set 1 Node.empty }
    qC7Pre.arena (CTask.cStep ((qC7Pre.db.memory.get? 1).getD Node.empty))

def w3db1 : Db :=
  match w3res with
  | some (d, _, _) => d
  | _ => ⟨[], [], 0, Index.hash 0⟩

def w3a1 : Arena :=
  match w3res with
  | some (_, a, _) => a
  | _ => Arena.new

def w3node1 : Node :=
  match w3res with
  | some (_, _, CRes.rStep n _) => n
  | _ => Node.empty

def w3enc : Nat :=
  match w3res with
  | some (_, _, CRes.rStep _ e) => e
  | _ => 0

/-- The root branch (memory position 0) of `qC7Pre`, its node taken out
exactly as `commit_node` does. -/
def w10res : Option (Db × Arena × CRes) :=
  commitGo tDigest 32 { qC7Pre.db with memory := qC7Pre.db.memory.set 0 Node.empty }
    qC7Pre.arena (CTask.cStep ((qC7Pre.db.memory.get? 0).getD Node.empty))

def w10db1 : Db :=
  match w10res with
  | some (d, _, _) => d
  | _ => ⟨[], [], 0, Index.hash 0⟩

def w10a1 : Arena :=
  match w10res with
  | some (_, a, _) => a
  | _ => Arena.new

def w10node1 : Node :=
  match w10res with
  | some (_, _, CRes.rStep n _) => n
  | _ => Node.empty

def w10enc : Nat :=
  match w10res with
  | some (_, _, CRes.rStep _ e) => e
  | _ => 0

/-- A one-extension trie: memory `[Ext{nibble=(1,0..2), key=Hash 9}]`, arena
slot 1 holding the byte `0x12`; splitting at offset 1 exercises the elision
case (`off + 1 = len`). -/
def w8Trie : Trie :=
  ⟨⟨[[], [0x12]]⟩, ⟨[], [Node.ext ⟨⟨1, 0, 2⟩, Index.hash 9⟩], 0, Index.memory 0⟩⟩

/-!  ## Theorems -/

theorem tDigest_length (b : Bytes) : (tDigest b).length = 32 := by
  simp only [tDigest, List.length_cons, List.length_append, List.length_take,
    List.length_replicate]
  omega

/-- C1, failing run: in `qExtTrie` (no commit ever happened), inserting the
key `[0x01]` — whose nibble path ends strictly inside the root Extension's
nibble — succeeds and reports no previous value, yet an immediate `get` of
that key returns `None` (the descent stored the value as the value of the
Branch *behind* the whole extension, where `get`'s full-nibble equality test
can never reach it).  The spec's round-trip property fails on this input. -/
theorem claim_C1_roundtrip_bug :
    (qExtTrie.insert [0x01] [0xcc] 64).map
        (fun r => (r.2, Trie.get r.1 [0x01] 64)) = some (none, some none) ∧
    qExtTrie.get [0x01, 0x23, 0x45] 64 = some (some [0xaa]) ∧
    qExtTrie.get [0x01, 0x23, 0x67] 64 = some (some [0xbb]) := by
  refine ⟨by decide, by decide, by decide⟩

/-- C2, failing run: the same three pairs inserted in two orders commit to
different root digests (in the order ending with the short key `[0x01]`, that
key is mis-stored inside the extension, yielding a structurally different
trie).  Both commits succeed, and in the second order all three keys resolve,
while the first order loses `[0x01]`. -/
theorem claim_C2_order_bug :
    (Trie.commit tDigest 64 qC2a).isSome = true ∧
    (Trie.commit tDigest 64 qC2b).isSome = true ∧
    (Trie.commit tDigest 64 qC2a).map Trie.rootB
      ≠ (Trie.commit tDigest 64 qC2b).map Trie.rootB ∧
    qC2a.get [0x01] 64 = some none ∧
    qC2b.get [0x01] 64 = some (some [0xcc]) ∧
    qC2b.get [0x01, 0x23, 0x45] 64 = some (some [0xaa]) ∧
    qC2b.get [0x01, 0x23, 0x67] 64 = some (some [0xbb]) := by
  refine ⟨by decide, by decide, by decide, by decide, by decide, by decide, by decide⟩

/-- C4, failing run: in `qC4Trie` the key `[0x01]` holds no value
(`get [0x01] = None`), yet `insert([0x01], dd)` returns `Some [0xcc]` — the
value stored under the *different* key `[0x01, 0x23]` — instead of the `None`
the claim requires for a fresh key (and it clobbers `[0x01, 0x23]`'s value in
the process). -/
theorem claim_C4_prev_value_bug :
    qC4Trie.get [0x01] 64 = some none ∧
    qC4Trie.get [0x01, 0x23] 64 = some (some [0xcc]) ∧
    (qC4Trie.insert [0x01] [0xdd] 64).map (·.2) = some (some [0xcc]) := by
  refine ⟨by decide, by decide, by decide⟩

/-- C6, failing run: one insert, then `commit()` (which succeeds), then
`defragment()`.  Before defragmentation `get([0x01,0x23])` finds `[0x45]`;
after it the same `get` returns `None`: `Db::defragment` rewrites the handles
inside every hash-tier node but never rewrites the stored root index, which
now dangles (the hash tier is re-keyed through the remap table, the root is
not). -/
theorem claim_C6_defragment_bug :
    (Trie.commit tDigest 64 qC6Pre).isSome = true ∧
    qC6Committed.get [0x01, 0x23] 64 = some (some [0x45]) ∧
    (Trie.defragment qC6Committed).get [0x01, 0x23] 64 = some none := by
  refine ⟨by decide, by decide, by decide⟩

/-- C7, failing run: two keys with no common first half-byte produce a root
Branch with two occupied slots; after a successful commit the DFS iterator
yields the first pair over and over (when resuming a Branch frame,
`DFSIter::next` uses the position found in the *skipped* slot iterator
directly as an absolute slot index) and never yields the second inserted
pair, so the yielded set is not the inserted set. -/
theorem claim_C7_iter_bug :
    (Trie.commit tDigest 64 qC7Pre).isSome = true ∧
    iterTake qC7Committed 64 5 iterInit
      = List.replicate 5 ([0x01, 0x23], [0xaa]) ∧
    ([0x11, 0x23], [0xbb]) ∉ iterTake qC7Committed 64 8 iterInit ∧
    qC7Committed.get [0x11, 0x23] 64 = some (some [0xbb]) := by
  refine ⟨by decide, by decide, by decide, by decide⟩

/-- C9, counterexample: after inserting `[0x01,0x23]` and `[0x01,0x25]` (a
trie state reachable by two inserts), the memory tier holds a Leaf with an
empty nibble — the branch slot consumed the keys' last differing half-byte —
while the trie stores four non-empty nodes, so the leaf is not the sole node.
This falsifies "a Leaf node's nibble is never empty when that leaf is not the
sole node in the trie". -/
theorem claim_C9_counterexample :
    (∃ l : Leaf, Node.leaf l ∈ qC9Trie.db.memory ∧ l.nibble.len = 0) ∧
    4 ≤ nonEmptyCount qC9Trie := by
  exact ⟨⟨⟨⟨5, 0, 0⟩, 4⟩, by decide, by decide⟩, by decide⟩

/-- C9, amended: in a reachable trie state a non-sole Leaf's nibble *can* be
empty — a Leaf in a Branch slot keeps only the path remainder past the
slot-selecting half-byte, which is empty when the key ends there — and such
states are sound: both keys still resolve to their values. -/
theorem claim_C9_amended :
    (∃ l : Leaf, Node.leaf l ∈ qC9Trie.db.memory ∧ l.nibble.len = 0) ∧
    4 ≤ nonEmptyCount qC9Trie ∧
    qC9Trie.get [0x01, 0x23] 64 = some (some [0xaa]) ∧
    qC9Trie.get [0x01, 0x25] 64 = some (some [0xbb]) := by
  exact ⟨⟨⟨⟨5, 0, 0⟩, 4⟩, by decide, by decide⟩, by decide, by decide, by decide⟩

/-- C3, counterexample: committing `qC6Pre` stores `digest(encoding)` for the
root even though the root's canonical encoding is only 6 bytes long; the raw
encoding is *not* stored as the hash placeholder, contradicting the claim's
"for every node". -/
theorem claim_C3_counterexample :
    qC3RootEnc.length < 32 ∧
    (Trie.commit tDigest 64 qC6Pre).map Trie.rootB
      = some (some (tDigest qC3RootEnc)) ∧
    tDigest qC3RootEnc ≠ qC3RootEnc := by
  refine ⟨by decide, by decide, by decide⟩

/-- Reading back a freshly pushed slot yields the pushed bytes. -/
theorem Arena.read_push (a : Arena) (b : Bytes) :
    (a.push b).1.read (a.push b).2 = b := by
  simp [Arena.push, Arena.read, List.getD, List.getElem?_concat_length]

/-- `commit_node` and its sub-loops never touch `root` or `empty`. -/
theorem commitGo_preserves (digest : Bytes → Bytes) :
    ∀ (f : Nat) (db : Db) (a : Arena) (task : CTask) (r : Db × Arena × CRes),
      commitGo digest f db a task = some r →
      r.1.root = db.root ∧ r.1.empty = db.empty := by
  intro f
  induction f with
  | zero => intro db a task r h; simp [commitGo] at h
  | succ f ih =>
    intro db a task r h
    match task with
    | CTask.cNode idx =>
      match idx with
      | Index.hash h0 =>
        simp only [commitGo] at h
        cases h
        exact ⟨rfl, rfl⟩
      | Index.memory i =>
        simp only [commitGo] at h
        split at h
        next db1 a1 node1 encIdx hstep =>
          have h1 := ih _ _ _ _ hstep
          split at h
          · cases h; exact h1
          · cases h; exact h1
        next => exact absurd h (by simp)
    | CTask.cStep n =>
      match n with
      | Node.leaf l =>
        simp only [commitGo] at h
        cases h
        exact ⟨rfl, rfl⟩
      | Node.branch b =>
        simp only [commitGo] at h
        split at h
        next db1 a1 keys1 hkeys =>
          have h1 := ih _ _ _ _ hkeys
          cases h
          exact h1
        next => exact absurd h (by simp)
      | Node.ext e =>
        simp only [commitGo] at h
        split at h
        next db1 a1 k1 hnode =>
          have h1 := ih _ _ _ _ hnode
          cases h
          exact h1
        next => exact absurd h (by simp)
      | Node.empty =>
        simp only [commitGo] at h
        cases h
        exact ⟨rfl, rfl⟩
    | CTask.cKeys ks =>
      match ks with
      | [] =>
        simp only [commitGo] at h
        cases h
        exact ⟨rfl, rfl⟩
      | none :: t =>
        simp only [commitGo] at h
        split at h
        next db1 a1 t1 hrec =>
          have h1 := ih _ _ _ _ hrec
          cases h
          exact h1
        next => exact absurd h (by simp)
      | some ki :: t =>
        simp only [commitGo] at h
        split at h
        next db1 a1 k1 hnode =>
          split at h
          next db2 a2 t2 hrec =>
            have h1 := ih _ _ _ _ hnode
            have h2 := ih _ _ _ _ hrec
            cases h
            exact ⟨h2.1.trans h1.1, h2.2.trans h1.2⟩
          next => exact absurd h (by simp)
        next => exact absurd h (by simp)

/-- Committing a memory-tier index always produces a `Hash` index. -/
theorem commitGo_memory_hash (digest : Bytes → Bytes) (f : Nat) (db : Db)
    (a : Arena) (i : Nat) (r : Db × Arena × CRes)
    (h : commitGo digest f db a (CTask.cNode (Index.memory i)) = some r) :
    ∃ db' a' h0, r = (db', a', CRes.rNode (Index.hash h0)) := by
  match f with
  | 0 => simp [commitGo] at h
  | f + 1 =>
    simp only [commitGo] at h
    split at h
    next db1 a1 node1 encIdx _ =>
      split at h
      · cases h; exact ⟨_, _, _, rfl⟩
      · cases h; exact ⟨_, _, _, rfl⟩
    next => exact absurd h (by simp)

/-- C5: commit is idempotent.  If `commit` turned `t` into `t'` then a second
`commit` (with any fuel, including none) returns `t'` itself — the storage is
bit-for-bit unchanged — and `t'`'s root is Hash-tier, so the no-op early
return is taken. -/
theorem claim_C5_commit_idempotent (digest : Bytes → Bytes) (f g : Nat)
    (t t' : Trie) (h : Trie.commit digest f t = some t') :
    Trie.commit digest g t' = some t' ∧ ∃ h0, t'.db.root = Index.hash h0 := by
  unfold Trie.commit at h
  split at h
  next h0 hroot =>
    cases h
    refine ⟨?_, ⟨h0, hroot⟩⟩
    unfold Trie.commit
    rw [hroot]
  next i hroot =>
    split at h
    next db' a' idx' hgo =>
      obtain ⟨db2, a2, h0, hr⟩ := commitGo_memory_hash digest f t.db t.arena i _ (hroot ▸ hgo)
      cases hr
      cases h
      refine ⟨?_, ⟨h0, rfl⟩⟩
      unfold Trie.commit
      rfl
    next => exact absurd h (by simp)

/-- C5 witness: the committed single-leaf trie; the second commit with zero
fuel is the no-op. -/
theorem claim_C5_witness :
    Trie.commit tDigest 64 qC6Pre = some qC6Committed ∧
    Trie.commit tDigest 0 qC6Committed = some qC6Committed :=
  ⟨by decide, (claim_C5_commit_idempotent tDigest 64 0 qC6Pre qC6Committed (by decide)).1⟩

/-- C3, amended: for every **non-root** node reached during commit (here: an
arbitrary memory-tier index different from the root, whose children have been
committed and whose encoding handle is `encIdx`), the inline-vs-hash policy
of `Db::commit_node` holds as specified: if the canonical encoding is
strictly shorter than 32 bytes the node is stored under the raw encoding's
own handle and the arena is left untouched (no digest is computed or pushed);
otherwise `digest(encoding)` is pushed and the node is stored under its
handle.  (The root is excluded: it is always digested — see C10.) -/
theorem claim_C3_amended (digest : Bytes → Bytes) (f : Nat) (db : Db)
    (a : Arena) (i : Nat) (db1 : Db) (a1 : Arena) (node1 : Node) (encIdx : Nat)
    (hstep : commitGo digest f { db with memory := db.memory.set i Node.empty } a
        (CTask.cStep ((db.memory.get? i).getD Node.empty))
        = some (db1, a1, CRes.rStep node1 encIdx))
    (hroot : Index.memory i ≠ db.root) :
    ((a1.read encIdx).length < 32 →
      commitGo digest (f + 1) db a (CTask.cNode (Index.memory i))
        = some ({ db1 with hash := hInsert db1.hash encIdx node1 }, a1,
                CRes.rNode (Index.hash encIdx)))
    ∧ (32 ≤ (a1.read encIdx).length →
      commitGo digest (f + 1) db a (CTask.cNode (Index.memory i))
        = some ({ db1 with hash := hInsert db1.hash (a1.push (digest (a1.read encIdx))).2 node1 },
                (a1.push (digest (a1.read encIdx))).1,
                CRes.rNode (Index.hash (a1.push (digest (a1.read encIdx))).2))
      ∧ (a1.push (digest (a1.read encIdx))).1.read (a1.push (digest (a1.read encIdx))).2
          = digest (a1.read encIdx)) := by
  have hr : db1.root = db.root :=
    (commitGo_preserves digest f _ _ _ _ hstep).1
  constructor
  · intro hlen
    simp only [commitGo, hstep]
    rw [if_neg]
    intro hc
    rcases hc with hc | hc
    · exact hroot (hr ▸ hc)
    · omega
  · intro hlen
    refine ⟨?_, Arena.read_push a1 _⟩
    simp only [commitGo, hstep]
    rw [if_pos (Or.inr hlen)]

/-- C3 witness: the policy theorem applied to the non-root leaf at memory
position 1 of `qC7Pre`; its encoding is 8 bytes, so the short (inline,
digest-free) arm is the live one. -/
theorem claim_C3_witness :
    w3res = some (w3db1, w3a1, CRes.rStep w3node1 w3enc) ∧
    Index.memory 1 ≠ qC7Pre.db.root ∧
    (w3a1.read w3enc).length < 32 ∧
    (((w3a1.read w3enc).length < 32 →
      commitGo tDigest (32 + 1) qC7Pre.db qC7Pre.arena (CTask.cNode (Index.memory 1))
        = some ({ w3db1 with hash := hInsert w3db1.hash w3enc w3node1 }, w3a1,
                CRes.rNode (Index.hash w3enc)))
    ∧ (32 ≤ (w3a1.read w3enc).length →
      commitGo tDigest (32 + 1) qC7Pre.db qC7Pre.arena (CTask.cNode (Index.memory 1))
        = some ({ w3db1 with hash := hInsert w3db1.hash (w3a1.push (tDigest (w3a1.read w3enc))).2 w3node1 },
                (w3a1.push (tDigest (w3a1.read w3enc))).1,
                CRes.rNode (Index.hash (w3a1.push (tDigest (w3a1.read w3enc))).2))
      ∧ (w3a1.push (tDigest (w3a1.read w3enc))).1.read (w3a1.push (tDigest (w3a1.read w3enc))).2
          = tDigest (w3a1.read w3enc))) :=
  ⟨by decide, by decide, by decide,
   claim_C3_amended tDigest 32 qC7Pre.db qC7Pre.arena 1 w3db1 w3a1 w3node1 w3enc
     (by decide) (by decide)⟩

/-- C10: at commit the root is **always** digested — the hypotheses place no
constraint on the length of the root's canonical encoding `a1.read encIdx`,
so the inline-short-encoding rule is never applied to it — and afterwards
`root()` returns `digest(encoding)`, whose length is 32 under the digest
contract. -/
theorem claim_C10_root_always_digested (digest : Bytes → Bytes) (f : Nat)
    (t : Trie) (i : Nat) (db1 : Db) (a1 : Arena) (node1 : Node) (encIdx : Nat)
    (hroot : t.db.root = Index.memory i)
    (hstep : commitGo digest f { t.db with memory := t.db.memory.set i Node.empty }
        t.arena (CTask.cStep ((t.db.memory.get? i).getD Node.empty))
        = some (db1, a1, CRes.rStep node1 encIdx)) :
    ∃ t', Trie.commit digest (f + 1) t = some t'
      ∧ t'.rootB = some (digest (a1.read encIdx))
      ∧ ((∀ b, (digest b).length = 32) →
          ∃ bs, t'.rootB = some bs ∧ bs.length = 32) := by
  have hr : db1.root = t.db.root :=
    (commitGo_preserves digest f _ _ _ _ hstep).1
  have hcommit : Trie.commit digest (f + 1) t
      = some ⟨(a1.push (digest (a1.read encIdx))).1,
              { db1 with
                hash := hInsert db1.hash (a1.push (digest (a1.read encIdx))).2 node1,
                memory := [],
                root := Index.hash (a1.push (digest (a1.read encIdx))).2 }⟩ := by
    unfold Trie.commit
    rw [hroot]
    simp only [commitGo, hstep]
    rw [if_pos (Or.inl (hr.trans hroot).symm)]
  refine ⟨_, hcommit, ?_, ?_⟩
  · simp only [Trie.rootB]
    rw [Arena.read_push]
  · intro hlen
    refine ⟨digest (a1.read encIdx), ?_, hlen _⟩
    simp only [Trie.rootB]
    rw [Arena.read_push]

theorem listSetGetD {α : Type} (l : List α) (i : Nat) (a d : α)
    (h : i < l.length) : (l.set i a).getD i d = a := by
  induction l generalizing i with
  | nil => simp at h
  | cons x t ih =>
    cases i with
    | zero => rfl
    | succ j => simpa using ih j (by simpa using h)

theorem listSetMem {α : Type} {l : List α} {i : Nat} {a b : α}
    (h : b ∈ l.set i a) : b ∈ l ∨ b = a := by
  induction l generalizing i with
  | nil => simp at h
  | cons x t ih =>
    cases i with
    | zero =>
      rcases List.mem_cons.mp h with h | h
      · exact Or.inr h
      · exact Or.inl (List.mem_cons_of_mem x h)
    | succ j =>
      rcases List.mem_cons.mp h with h | h
      · exact Or.inl (h ▸ List.mem_cons_self x t)
      · rcases ih h with h | h
        · exact Or.inl (List.mem_cons_of_mem x h)
        · exact Or.inr h

theorem listGetQSet_ne {α : Type} (l : List α) (i j : Nat) (a : α)
    (h : i ≠ j) : (l.set i a).get? j = l.get? j := by
  induction l generalizing i j with
  | nil => simp
  | cons x t ih =>
    cases i with
    | zero =>
      cases j with
      | zero => exact absurd rfl h
      | succ m => rfl
    | succ n =>
      cases j with
      | zero => rfl
      | succ m => exact ih n m (by omega)

theorem listGetQ_concat {α : Type} (l : List α) (a : α) :
    (l ++ [a]).get? l.length = some a := by
  induction l with
  | nil => rfl
  | cons x t ih => exact ih

theorem listGetQ_mem {α : Type} {l : List α} {n : Nat} {a : α}
    (h : l.get? n = some a) : a ∈ l := by
  induction l generalizing n with
  | nil => simp at h
  | cons x t ih =>
    cases n with
    | zero =>
      simp only [List.get?] at h
      injection h with h
      exact h ▸ List.mem_cons_self x t
    | succ m => exact List.mem_cons_of_mem x (ih h)

theorem halfAt_lt (bs : Bytes) (j : Nat) : halfAt bs j < 16 := by
  unfold halfAt
  split <;> exact Nat.mod_lt _ (by omega)

theorem listGetQSet_self {α : Type} (l : List α) (i : Nat) (a : α)
    (h : i < l.length) : (l.set i a).get? i = some a := by
  induction l generalizing i with
  | nil => simp at h
  | cons x t ih =>
    cases i with
    | zero => rfl
    | succ j => exact ih j (by simpa using h)

theorem Nibble.get_lt (r : Nat → Bytes) (n : Nibble) (i : Nat) :
    Nibble.get r n i < 16 := halfAt_lt _ _

theorem memSetSelf (l : List Node) (k : Nat) (b : Node) (hk : k < l.length) :
    b ∈ l.set k b := listGetQ_mem (listGetQSet_self l k b hk)

theorem memConcatSet (l : List Node) (k : Nat) (b w : Node) (hk : k < l.length) :
    b ∈ (l ++ [b]).set k w := by
  apply listGetQ_mem (n := l.length)
  rw [listGetQSet_ne _ k l.length _ (by omega)]
  exact listGetQ_concat l b

theorem extInvAux (old : List Node) (k : Nat) (mem2 : List Node) (w : Node)
    (hmem2 : ∀ x ∈ mem2, x ∈ old ∨ x = Node.empty
              ∨ (∀ e' : Extension, x = Node.ext e' → 0 < e'.nibble.len))
    (hw : ∀ e' : Extension, w = Node.ext e' → 0 < e'.nibble.len) :
    ∀ n ∈ mem2.set k w, ∀ e' : Extension, n = Node.ext e' →
      n ∈ old ∨ 0 < e'.nibble.len := by
  intro n hn e' hne
  rcases listSetMem hn with hn | rfl
  · rcases hmem2 n hn with h | h | h
    · exact Or.inl h
    · subst h; cases hne
    · exact Or.inr (h e' hne)
  · exact Or.inr (hw e' hne)

set_option maxHeartbeats 1000000 in
/-- C8: splitting an Extension never creates a zero-length Extension.  For
any state, scratch arena and path, executing `Action::Extension(ext, offset)`
at a memory index `k` (the shape every break in `insert_leaf` produces) with
`offset` a genuine mismatch position (`offset < ext.nibble.len()`):
the action succeeds (previous value `None`), the hash tier is untouched,
every Extension node in the resulting memory tier either predates the action
or has a non-empty nibble, and when the post-split remainder past the first
half-byte is empty (`offset + 1 = ext.nibble.len()`) the old extension's
child `Index` itself is placed directly in a branch slot. -/
theorem claim_C8_extension_split_invariant (read : Nat → Bytes) (v : Nat)
    (e : Extension) (off : Nat) (t : Trie) (k : Nat) (path : Nibble)
    (hoff : off < e.nibble.len) (hk : k < t.db.memory.length) :
    ∃ t', executeAction read v (Action.actExt e off) t (Index.memory k) path
        = some (t', none)
      ∧ t'.db.hash = t.db.hash
      ∧ (∀ n ∈ t'.db.memory, ∀ e' : Extension, n = Node.ext e' →
          n ∈ t.db.memory ∨ 0 < e'.nibble.len)
      ∧ (off + 1 = e.nibble.len →
          ∃ br : Branch, ∃ u : Nat, Node.branch br ∈ t'.db.memory ∧ u < 16 ∧
            br.keys.getD u none = some e.key) := by
  have hss : e.nibble.start + off < e.nibble.stop := by
    simp only [Nibble.len] at hoff; omega
  have h1 : ¬ e.nibble.stop ≤ e.nibble.start + off := by omega
  have hwrap : 0 < off → 0 < ((e.nibble.splitAt off).1 : Nibble).len := by
    intro ho
    simp only [Nibble.splitAt, Nibble.len]
    omega
  have hbind2 : ∀ r : Nat → Bytes,
      ((e.nibble.splitAt off).2.bind fun n0 => Nibble.popFront r n0)
        = some (Nibble.get r ⟨e.nibble.data, e.nibble.start + off, e.nibble.stop⟩ 0,
                ⟨e.nibble.data, e.nibble.start + off + 1, e.nibble.stop⟩) := by
    intro r
    simp only [Nibble.splitAt, if_neg h1, Option.bind, Nibble.popFront, if_pos hss]
  have hremlen : (t.db.memory.set k Node.empty).length = t.db.memory.length :=
    List.length_set t.db.memory k Node.empty
  have hleafNotExt : ∀ (l0 : Leaf) (e2 : Extension),
      Node.leaf l0 = Node.ext e2 → 0 < e2.nibble.len := by
    intro l0 e2 hc; cases hc
  have hbrNotExt : ∀ (b0 : Branch) (e2 : Extension),
      Node.branch b0 = Node.ext e2 → 0 < e2.nibble.len := by
    intro b0 e2 hc; cases hc
  have hremMem : ∀ x ∈ t.db.memory.set k Node.empty,
      x ∈ t.db.memory ∨ x = Node.empty
        ∨ (∀ e' : Extension, x = Node.ext e' → 0 < e'.nibble.len) := by
    intro x hx
    rcases listSetMem hx with hx | rfl
    · exact Or.inl hx
    · exact Or.inr (Or.inl rfl)
  rcases hp : (path.splitAt off).2.bind (fun p => Nibble.popFront read p) with _ | ⟨u1, p1⟩
  all_goals simp only [executeAction, hp, hbind2]
  all_goals by_cases hz :
    (⟨e.nibble.data, e.nibble.start + off + 1, e.nibble.stop⟩ : Nibble).len = 0
  all_goals first
    | simp only [if_pos hz]
    | simp only [if_neg hz]
  all_goals by_cases ho : 0 < off
  all_goals first
    | simp only [if_pos ho]
    | simp only [if_neg ho]
  all_goals refine ⟨_, rfl, rfl, ?_, ?_⟩
  all_goals simp only [Db.removeNode, Db.pushNode, Db.insertNode]
  -- case hp = none, hz, ho : memory = (M0 ++ [br]).set k wrap
  · refine extInvAux t.db.memory k _ _ ?_ ?_
    · intro x hx
      rcases List.mem_append.mp hx with hx | hx
      · exact hremMem x hx
      · simp only [List.mem_singleton] at hx; subst hx
        exact Or.inr (Or.inr (hbrNotExt _))
    · intro e2 hwe
      injection hwe with h2
      subst h2
      exact hwrap ho
  · intro _
    exact ⟨_, _, memConcatSet _ k _ _ (by omega), Nibble.get_lt _ _ _,
      listSetGetD _ _ _ _ (by
        simp only [Branch.dflt, List.length_replicate]
        exact Nibble.get_lt _ _ _)⟩
  -- case hp = none, hz, ¬ho : memory = M0.set k (branch br)
  · exact extInvAux t.db.memory k _ _ hremMem (hbrNotExt _)
  · intro _
    exact ⟨_, _, memSetSelf _ k _ (by omega), Nibble.get_lt _ _ _,
      listSetGetD _ _ _ _ (by
        simp only [Branch.dflt, List.length_replicate]
        exact Nibble.get_lt _ _ _)⟩
  -- case hp = none, ¬hz, ho : memory = ((M0 ++ [extRem]) ++ [br]).set k wrap
  · refine extInvAux t.db.memory k _ _ ?_ ?_
    · intro x hx
      rcases List.mem_append.mp hx with hx | hx
      · rcases List.mem_append.mp hx with hx | hx
        · exact hremMem x hx
        · simp only [List.mem_singleton] at hx; subst hx
          refine Or.inr (Or.inr ?_)
          intro e2 hxe
          injection hxe with h2
          subst h2
          simp only [Nibble.len] at hz ⊢
          omega
      · simp only [List.mem_singleton] at hx; subst hx
        exact Or.inr (Or.inr (hbrNotExt _))
    · intro e2 hwe
      injection hwe with h2
      subst h2
      exact hwrap ho
  · intro hlen1
    exfalso
    apply hz
    simp only [Nibble.len] at hlen1 ⊢
    omega
  -- case hp = none, ¬hz, ¬ho : memory = (M0 ++ [extRem]).set k (branch br)
  · refine extInvAux t.db.memory k _ _ ?_ (hbrNotExt _)
    intro x hx
    rcases List.mem_append.mp hx with hx | hx
    · exact hremMem x hx
    · simp only [List.mem_singleton] at hx; subst hx
      refine Or.inr (Or.inr ?_)
      intro e2 hxe
      injection hxe with h2
      subst h2
      simp only [Nibble.len] at hz ⊢
      omega
  · intro hlen1
    exfalso
    apply hz
    simp only [Nibble.len] at hlen1 ⊢
    omega
  -- case hp = some, hz, ho : memory = ((M0 ++ [leaf]) ++ [br]).set k wrap
  · refine extInvAux t.db.memory k _ _ ?_ ?_
    · intro x hx
      rcases List.mem_append.mp hx with hx | hx
      · rcases List.mem_append.mp hx with hx | hx
        · exact hremMem x hx
        · simp only [List.mem_singleton] at hx; subst hx
          exact Or.inr (Or.inr (hleafNotExt _))
      · simp only [List.mem_singleton] at hx; subst hx
        exact Or.inr (Or.inr (hbrNotExt _))
    · intro e2 hwe
      injection hwe with h2
      subst h2
      exact hwrap ho
  · intro _
    exact ⟨_, _, memConcatSet _ k _ _ (by simp only [List.length_append, hremlen]; omega),
      Nibble.get_lt _ _ _,
      listSetGetD _ _ _ _ (by
        simp only [Branch.dflt, List.length_set, List.length_replicate]
        exact Nibble.get_lt _ _ _)⟩
  -- case hp = some, hz, ¬ho : memory = (M0 ++ [leaf]).set k (branch br)
  · refine extInvAux t.db.memory k _ _ ?_ (hbrNotExt _)
    intro x hx
    rcases List.mem_append.mp hx with hx | hx
    · exact hremMem x hx
    · simp only [List.mem_singleton] at hx; subst hx
      exact Or.inr (Or.inr (hleafNotExt _))
  · intro _
    exact ⟨_, _, memSetSelf _ k _ (by simp only [List.length_append, hremlen]; omega),
      Nibble.get_lt _ _ _,
      listSetGetD _ _ _ _ (by
        simp only [Branch.dflt, List.length_set, List.length_replicate]
        exact Nibble.get_lt _ _ _)⟩
  -- case hp = some, ¬hz, ho : memory = (((M0 ++ [leaf]) ++ [extRem]) ++ [br]).set k wrap
  · refine extInvAux t.db.memory k _ _ ?_ ?_
    · intro x hx
      rcases List.mem_append.mp hx with hx | hx
      · rcases List.mem_append.mp hx with hx | hx
        · rcases List.mem_append.mp hx with hx | hx
          · exact hremMem x hx
          · simp only [List.mem_singleton] at hx; subst hx
            exact Or.inr (Or.inr (hleafNotExt _))
        · simp only [List.mem_singleton] at hx; subst hx
          refine Or.inr (Or.inr ?_)
          intro e2 hxe
          injection hxe with h2
          subst h2
          simp only [Nibble.len] at hz ⊢
          omega
      · simp only [List.mem_singleton] at hx; subst hx
        exact Or.inr (Or.inr (hbrNotExt _))
    · intro e2 hwe
      injection hwe with h2
      subst h2
      exact hwrap ho
  · intro hlen1
    exfalso
    apply hz
    simp only [Nibble.len] at hlen1 ⊢
    omega
  -- case hp = some, ¬hz, ¬ho : memory = ((M0 ++ [leaf]) ++ [extRem]).set k (branch br)
  · refine extInvAux t.db.memory k _ _ ?_ (hbrNotExt _)
    intro x hx
    rcases List.mem_append.mp hx with hx | hx
    · rcases List.mem_append.mp hx with hx | hx
      · exact hremMem x hx
      · simp only [List.mem_singleton] at hx; subst hx
        exact Or.inr (Or.inr (hleafNotExt _))
    · simp only [List.mem_singleton] at hx; subst hx
      refine Or.inr (Or.inr ?_)
      intro e2 hxe
      injection hxe with h2
      subst h2
      simp only [Nibble.len] at hz ⊢
      omega
  · intro hlen1
    exfalso
    apply hz
    simp only [Nibble.len] at hlen1 ⊢
    omega

/-- C8 witness: the invariant theorem applied at the concrete one-extension
trie. -/
theorem claim_C8_witness :
    (1 : Nat) < Nibble.len ⟨1, 0, 2⟩ ∧ (0 : Nat) < w8Trie.db.memory.length ∧
    (∃ t', executeAction (fun _ => []) 7
          (Action.actExt ⟨⟨1, 0, 2⟩, Index.hash 9⟩ 1) w8Trie (Index.memory 0)
          ⟨0, 0, 0⟩
        = some (t', none)
      ∧ t'.db.hash = w8Trie.db.hash
      ∧ (∀ n ∈ t'.db.memory, ∀ e' : Extension, n = Node.ext e' →
          n ∈ w8Trie.db.memory ∨ 0 < e'.nibble.len)
      ∧ (1 + 1 = Nibble.len ⟨1, 0, 2⟩ →
          ∃ br : Branch, ∃ u : Nat, Node.branch br ∈ t'.db.memory ∧ u < 16 ∧
            br.keys.getD u none = some (Index.hash 9))) :=
  ⟨by decide, by decide,
   claim_C8_extension_split_invariant (fun _ => []) 7 ⟨⟨1, 0, 2⟩, Index.hash 9⟩ 1
     w8Trie 0 ⟨0, 0, 0⟩ (by decide) (by decide)⟩

/-- C10 witness: the root of `qC7Pre` has a 29-byte encoding — shorter than
the digest width — yet commit digests it; the resulting `root()` bytes equal
`tDigest(encoding)` and have length 32. -/
theorem claim_C10_witness :
    qC7Pre.db.root = Index.memory 0 ∧
    w10res = some (w10db1, w10a1, CRes.rStep w10node1 w10enc) ∧
    (w10a1.read w10enc).length < 32 ∧
    (∃ t', Trie.commit tDigest (32 + 1) qC7Pre = some t'
      ∧ t'.rootB = some (tDigest (w10a1.read w10enc))
      ∧ ((∀ b, (tDigest b).length = 32) →
          ∃ bs, t'.rootB = some bs ∧ bs.length = 32)) :=
  ⟨by decide, by decide, by decide,
   claim_C10_root_always_digested tDigest 32 qC7Pre 0 w10db1 w10a1 w10node1 w10enc
     (by decide) (by decide)⟩

end QPT

